import Mathlib

/-
  Verification development for the flagrep bounded decoder-composition
  search engine.

  Modelling conventions:
  * A Go string is a byte sequence, modelled as `List Nat` (each element a
    byte value 0..255 for real inputs).
  * Go functions returning `(string, error)` are modelled as
    `Str → Option Str` (`some` for a nil error, `none` for an error).
  * Go code that can also panic (slice out of range) is modelled with the
    explicit outcome type `DecodeOutcome`.
  * Go ranges over a string (`for _, r := range s`) decode UTF-8 runes,
    mapping each invalid byte to U+FFFD; conversions `[]rune(s)` and back
    are modelled by `utf8Decode` / `utf8Encode` below, following the Go
    language specification for those conversions.
  * Floating-point ratio tests of the form
    `float64(p)/float64(n) >= c` (c one of 0.8, 0.5) are modelled by the
    exact rational comparison (e.g. `4 * n ≤ 5 * p`), which agrees with
    the float computation for all realistic input lengths.
-/

/-- A Go string: a sequence of bytes. -/
abbrev Str := List Nat

/-- The byte slice `l[a:b]` of Go (requires `a ≤ b ≤ l.length` in Go;
total here via truncation). -/
def extract (l : Str) (a b : Nat) : Str :=
  (l.drop a).take (b - a)

/-- The printability test used by `xorBruteForceDecoder` and
`base85Decoder`: printable ASCII 32..126 or tab/LF/CR. -/
def goPrintable (b : Nat) : Bool :=
  decide ((32 ≤ b ∧ b ≤ 126) ∨ b = 10 ∨ b = 13 ∨ b = 9)

/-- A UTF-8 continuation byte (0x80..0xBF). -/
def contByte (b : Nat) : Bool :=
  decide (128 ≤ b ∧ b ≤ 191)

/-- Allowed second byte of a three-byte UTF-8 sequence starting with `b`. -/
def utf8Second3 (b b1 : Nat) : Bool :=
  if b = 224 then decide (160 ≤ b1 ∧ b1 ≤ 191)
  else if b = 237 then decide (128 ≤ b1 ∧ b1 ≤ 159)
  else contByte b1

/-- Allowed second byte of a four-byte UTF-8 sequence starting with `b`. -/
def utf8Second4 (b b1 : Nat) : Bool :=
  if b = 240 then decide (144 ≤ b1 ∧ b1 ≤ 191)
  else if b = 244 then decide (128 ≤ b1 ∧ b1 ≤ 143)
  else contByte b1

/-- Decode a byte sequence to code points the way Go's `[]rune(s)` (and
`for _, r := range s`) does: each well-formed UTF-8 sequence yields its
code point, every byte of an ill-formed sequence yields U+FFFD (65533).
The fuel argument is at least the number of bytes; every step consumes at
least one byte. -/
def utf8DecodeAux : Nat → List Nat → List Nat
  | 0, _ => []
  | _, [] => []
  | fuel + 1, b :: rest =>
    if b < 128 then b :: utf8DecodeAux fuel rest
    else if 194 ≤ b ∧ b ≤ 223 then
      match rest with
      | b1 :: rest2 =>
        if contByte b1 then
          ((b - 192) * 64 + (b1 - 128)) :: utf8DecodeAux fuel rest2
        else 65533 :: utf8DecodeAux fuel rest
      | [] => [65533]
    else if 224 ≤ b ∧ b ≤ 239 then
      match rest with
      | b1 :: b2 :: rest3 =>
        if utf8Second3 b b1 && contByte b2 then
          ((b - 224) * 4096 + (b1 - 128) * 64 + (b2 - 128)) ::
            utf8DecodeAux fuel rest3
        else 65533 :: utf8DecodeAux fuel rest
      | _ => 65533 :: utf8DecodeAux fuel rest
    else if 240 ≤ b ∧ b ≤ 244 then
      match rest with
      | b1 :: b2 :: b3 :: rest4 =>
        if utf8Second4 b b1 && contByte b2 && contByte b3 then
          ((b - 240) * 262144 + (b1 - 128) * 4096 + (b2 - 128) * 64 +
            (b3 - 128)) :: utf8DecodeAux fuel rest4
        else 65533 :: utf8DecodeAux fuel rest
      | _ => 65533 :: utf8DecodeAux fuel rest
    else 65533 :: utf8DecodeAux fuel rest

/-- Go's `[]rune(s)` conversion. -/
def utf8Decode (l : List Nat) : List Nat :=
  utf8DecodeAux l.length l

/-- UTF-8 encoding of one code point, as in Go's `string(r)`:
surrogates and out-of-range values encode as U+FFFD. -/
def utf8EncodeChar (r : Nat) : List Nat :=
  if r < 128 then [r]
  else if r < 2048 then [192 + r / 64, 128 + r % 64]
  else if 55296 ≤ r ∧ r ≤ 57343 then [239, 191, 189]
  else if r < 65536 then [224 + r / 4096, 128 + (r / 64) % 64, 128 + r % 64]
  else if r ≤ 1114111 then
    [240 + r / 262144, 128 + (r / 4096) % 64, 128 + (r / 64) % 64,
      128 + r % 64]
  else [239, 191, 189]

/-- Go's `string(rs)` conversion from a rune slice. -/
def utf8Encode (rs : List Nat) : List Nat :=
  (rs.map utf8EncodeChar).flatten

/-- `reverseDecoder` (decoders), Go:
converts the input to `[]rune`, reverses in place, converts back. -/
def reverseDecoder (input : Str) : Option Str :=
  some (utf8Encode (utf8Decode input).reverse)

/-- `spaceRemovalDecoder` (decoders): `strings.ReplaceAll(input, " ", "")`
removes every 0x20 byte. -/
def spaceRemovalDecoder (input : Str) : Option Str :=
  some (input.filter (fun b => b != 32))

/-- One step of ROT13 on a code point, as in `rot13Decoder`. -/
def rot13Rune (r : Nat) : Nat :=
  if 97 ≤ r ∧ r ≤ 122 then (if 110 ≤ r then r - 13 else r + 13)
  else if 65 ≤ r ∧ r ≤ 90 then (if 78 ≤ r then r - 13 else r + 13)
  else r

/-- `rot13Decoder` (decoders): ranges over runes, rotates ASCII letters
by 13, rebuilds the string. -/
def rot13Decoder (input : Str) : Option Str :=
  some (utf8Encode ((utf8Decode input).map rot13Rune))

/-- One step of the Atbash substitution on a code point. -/
def atbashRune (r : Nat) : Nat :=
  if 97 ≤ r ∧ r ≤ 122 then 122 - (r - 97)
  else if 65 ≤ r ∧ r ≤ 90 then 90 - (r - 65)
  else r

/-- `atbashDecoder` (decoders): A↔Z, B↔Y, … on ASCII letters. -/
def atbashDecoder (input : Str) : Option Str :=
  some (utf8Encode ((utf8Decode input).map atbashRune))

/-- The per-key acceptance test of `xorBruteForceDecoder`: at least 80%
of the XORed bytes printable.  `float64(printable)/float64(len) >= 0.8`
is the exact comparison `4 * len ≤ 5 * printable`. -/
def xorOk (input : Str) (k : Nat) : Bool :=
  decide (4 * input.length ≤
    5 * ((input.map (fun x => x ^^^ k)).filter goPrintable).length)

/-- `xorBruteForceDecoder` (decoders): tries key bytes 1..255 in
ascending order; returns the first XORed result that is at least 80%
printable, an error if none qualifies or the input is empty. -/
def xorBruteForceDecoder (input : Str) : Option Str :=
  if input = [] then none
  else
    match (List.range' 1 255).find? (fun k => xorOk input k) with
    | some k => some (input.map (fun x => x ^^^ k))
    | none => none

/-- Outcome of a Go function that may return a value, return an error,
or panic at runtime. -/
inductive DecodeOutcome where
  | ok (s : Str)
  | fail
  | panics
deriving DecidableEq, Repr

/-- ASCII bytes trimmed by `strings.TrimSpace`. -/
def goSpaceByte (b : Nat) : Bool :=
  decide (b = 32 ∨ b = 9 ∨ b = 10 ∨ b = 13 ∨ b = 11 ∨ b = 12)

/-- `strings.TrimSpace` restricted to ASCII whitespace (sufficient for
the byte inputs considered here). -/
def trimSpace (l : Str) : Str :=
  ((l.dropWhile goSpaceByte).reverse.dropWhile goSpaceByte).reverse

/-- The whitespace bytes removed by the `strings.Map` pass inside
`base85Decoder` (space, LF, CR, tab). -/
def base85Ws (b : Nat) : Bool :=
  decide (b = 32 ∨ b = 10 ∨ b = 13 ∨ b = 9)

/-- A byte accepted by `base85Decoder`'s validation loop: `!`..`u` or
whitespace. -/
def base85Valid (b : Nat) : Bool :=
  decide (33 ≤ b ∧ b ≤ 117) || base85Ws b

/-- The `z` → `!!!!!` expansion of `base85Decoder`. -/
def zExpand (l : Str) : Str :=
  (l.map (fun c => if c = 122 then [33, 33, 33, 33, 33] else [c])).flatten

/-- Decode one chunk of at most five base85 digits, as in the body of
`base85Decoder`'s main loop: pad with `u`, accumulate into a `uint32`
(wrapping modulo 2^32), and keep `min (max (chunkLen-1) 1) 4` bytes. -/
def base85Chunk (chunk : Str) : Str :=
  let chunkLen := chunk.length
  let padded := chunk ++ List.replicate (5 - chunkLen) 117
  let value := (padded.foldl (fun acc c => acc * 85 + (c - 33)) 0) % 4294967296
  let numBytes := min (max (chunkLen - 1) 1) 4
  [value / 16777216 % 256, value / 65536 % 256, value / 256 % 256,
    value % 256].take numBytes

/-- The chunking loop of `base85Decoder`; fuel is at least the input
length. -/
def base85Chunks : Nat → Str → Str
  | 0, _ => []
  | _, [] => []
  | fuel + 1, s => base85Chunk (s.take 5) ++ base85Chunks fuel (s.drop 5)

/-- Everything `base85Decoder` does after the `<~ ~>` frame has been
stripped: `z`-expansion, emptiness and character validation, whitespace
removal, chunk decoding, and the 50% printability filter. -/
def base85Body (s : Str) : DecodeOutcome :=
  let z := zExpand s
  if z.length = 0 then .fail
  else if z.any (fun c => !(base85Valid c)) then .fail
  else
    let w := z.filter (fun c => !(base85Ws c))
    if w.length = 0 then .fail
    else
      let result := base85Chunks w.length w
      if result.length = 0 then .fail
      else if 2 * (result.filter goPrintable).length < result.length then .fail
      else .ok result

/-- `base85Decoder` (decoders): Ascii85 with optional `<~ ~>` framing.
After `strings.TrimSpace`, when the trimmed input has the `<~` prefix and
the `~>` suffix the code slices `s[2 : len(s)-2]`; for the three-byte
input `<~>` both tests hold and the slice bounds are `[2:1]`, a runtime
panic, modelled by `DecodeOutcome.panics`. -/
def base85Decoder (input : Str) : DecodeOutcome :=
  let s0 := trimSpace input
  if [60, 126].isPrefixOf s0 && [126, 62].isSuffixOf s0 then
    if s0.length < 4 then .panics
    else base85Body (extract s0 2 (s0.length - 2))
  else base85Body s0

/-- The literal-pattern matcher path of the Searcher
(`regexp.QuoteMeta(pattern)`, case-sensitive): `Regexp.MatchString`
holds iff the literal pattern occurs at some byte offset. -/
def hasMatch (pat content : Str) : Bool :=
  (List.range (content.length + 1)).any fun i => pat.isPrefixOf (content.drop i)

/-- `Regexp.FindAllStringIndex(content, cap)` for the literal pattern:
leftmost non-overlapping byte spans, at most `cap` of them, scanning from
index `i`.  After a hit the scan resumes after the match (one byte later
for an empty pattern).  The fuel is at least the number of loop steps;
`content.length + 1` always suffices from `i = 0`. -/
def findAllAux (pat content : Str) : Nat → Nat → Nat → List (Nat × Nat)
  | 0, _, _ => []
  | fuel + 1, i, cap =>
    if cap = 0 then []
    else if i ≤ content.length then
      if pat.isPrefixOf (content.drop i) then
        (i, i + pat.length) ::
          findAllAux pat content fuel (i + max 1 pat.length) (cap - 1)
      else findAllAux pat content fuel (i + 1) cap
    else []

/-- `Regexp.FindAllStringIndex(content, cap)` for the literal pattern. -/
def findAllStringIndex (pat content : Str) (cap : Nat) : List (Nat × Nat) :=
  findAllAux pat content (content.length + 1) 0 cap

/-- A line written (or a record collected) by `printMatch`: either a full
match record, or the `... and more matches ...` summary line. -/
inductive Emitted where
  | record (path : String) (decoders : List String) (matchText : Str)
      (context : Str) (offset : Nat)
  | more (path : String) (decoders : List String)
deriving DecidableEq, Repr

/-- The decoder chain carried by an emitted line. -/
def emDecoders : Emitted → List String
  | .record _ ds _ _ _ => ds
  | .more _ ds => ds

/-- Whether an emitted line is a full match record (as opposed to the
`... and more matches ...` summary). -/
def isFullRecord : Emitted → Bool
  | .record _ _ _ _ _ => true
  | .more _ _ => false

/-- The cap constant of `printMatch`. -/
def maxMatchesPerFile : Nat := 5

/-- The Searcher configuration fields consulted by the core
(pattern given as the literal byte pattern of the case-sensitive
non-regex path; the decoder registry as a list in iteration order). -/
structure Searcher where
  pattern : Str
  depth : Nat
  decoders : List (String × (Str → Option Str))
  contextBefore : Nat
  contextAfter : Nat
  magicTypes : List String
  entropyThreshold : ℚ

/-- `printMatch` (search): find up to `maxMatchesPerFile + 1` hits in the
decoded content; report the first five as full records with the context
window `content[max(off-B,0) : min(off+len+A, |content|)]`, and summarise
a sixth hit as the `... and more matches ...` line. -/
def printMatch (s : Searcher) (path : String) (decoders : List String)
    (content : Str) : List Emitted :=
  let locs := findAllStringIndex s.pattern content (maxMatchesPerFile + 1)
  (locs.take maxMatchesPerFile).map (fun loc =>
    let matchIndex := loc.1
    let matchLen := loc.2 - loc.1
    let start := matchIndex - s.contextBefore
    let stop := min (matchIndex + matchLen + s.contextAfter) content.length
    let pre := extract content start matchIndex
    let matchTxt := extract content matchIndex (matchIndex + matchLen)
    let suf := extract content (matchIndex + matchLen) stop
    Emitted.record path decoders matchTxt (pre ++ matchTxt ++ suf) matchIndex)
  ++ (if maxMatchesPerFile < locs.length then [Emitted.more path decoders] else [])

/-- A BFS search state: decoded content, decoder chain from the root,
and depth (`searchState` in the source). -/
structure SearchState where
  content : Str
  appliedDecoders : List String
  depth : Nat
deriving DecidableEq, Repr

/-- The successor generation of `searchBFS`: for each registry entry in
iteration order, apply the decoder; keep the result as a new state iff it
decoded without error, is non-empty, and differs from the current
content. -/
def expandState (s : Searcher) (st : SearchState) : List SearchState :=
  s.decoders.filterMap fun nd =>
    (nd.2 st.content).bind fun decoded =>
      if decoded ≠ [] ∧ decoded ≠ st.content then
        some ⟨decoded, st.appliedDecoders ++ [nd.1], st.depth + 1⟩
      else none

/-- The per-state emission of `searchBFS`: if the pattern matches the
state's content, `printMatch` runs on it. -/
def visitEmit (s : Searcher) (path : String) (st : SearchState) : List Emitted :=
  if hasMatch s.pattern st.content then
    printMatch s path st.appliedDecoders st.content
  else []

/-- The FIFO loop of `searchBFS`: dequeue, emit, stop expanding at the
depth bound (`if currentState.depth >= s.Depth`), else enqueue the
successors at the back.  The fuel bounds the number of dequeues; the
queue weight `(|registry|+1)^(D - depth)` summed over queue states
strictly decreases with each dequeue, so
`(|registry|+1)^D + 1` dequeues suffice from the root (see
`searchBFSAux_fuel_ext`). -/
def searchBFSAux (s : Searcher) (path : String) : Nat → List SearchState → List Emitted
  | 0, _ => []
  | _, [] => []
  | fuel + 1, st :: rest =>
    visitEmit s path st ++
      (if s.depth ≤ st.depth then searchBFSAux s path fuel rest
       else searchBFSAux s path fuel (rest ++ expandState s st))

/-- `searchBFS` (search): run the FIFO search from the root state
`(content, [], 0)`. -/
def searchBFS (s : Searcher) (content : Str) (path : String) : List Emitted :=
  searchBFSAux s path ((s.decoders.length + 1) ^ s.depth + 1)
    [⟨content, [], 0⟩]

/-- A file-signature table entry (`MagicSignature` in the source). -/
structure MagicSignature where
  name : String
  magic : List Nat
  offset : Nat

/-- The fixed signature table `magicSignatures`. -/
def magicSignatures : List MagicSignature := [
  ⟨"ELF", [127, 69, 76, 70], 0⟩,
  ⟨"MZ", [77, 90], 0⟩,
  ⟨"MACH-O", [254, 237, 250, 206], 0⟩,
  ⟨"MACH-O64", [254, 237, 250, 207], 0⟩,
  ⟨"ZIP", [80, 75, 3, 4], 0⟩,
  ⟨"GZIP", [31, 139], 0⟩,
  ⟨"RAR", [82, 97, 114, 33, 26, 7], 0⟩,
  ⟨"7Z", [55, 122, 188, 175, 39, 28], 0⟩,
  ⟨"TAR", [117, 115, 116, 97, 114], 257⟩,
  ⟨"XZ", [253, 55, 122, 88, 90, 0], 0⟩,
  ⟨"BZIP2", [66, 90, 104], 0⟩,
  ⟨"PDF", [37, 80, 68, 70], 0⟩,
  ⟨"PNG", [137, 80, 78, 71, 13, 10, 26, 10], 0⟩,
  ⟨"JPEG", [255, 216, 255], 0⟩,
  ⟨"GIF", [71, 73, 70, 56], 0⟩,
  ⟨"BMP", [66, 77], 0⟩,
  ⟨"WEBP", [82, 73, 70, 70], 0⟩,
  ⟨"MP3", [255, 251], 0⟩,
  ⟨"MP3_ID3", [73, 68, 51], 0⟩,
  ⟨"OGG", [79, 103, 103, 83], 0⟩,
  ⟨"FLAC", [102, 76, 97, 67], 0⟩,
  ⟨"CLASS", [202, 254, 186, 190], 0⟩,
  ⟨"DEX", [100, 101, 120, 10], 0⟩,
  ⟨"SCRIPT", [35, 33], 0⟩,
  ⟨"SQLITE", [83, 81, 76, 105, 116, 101, 32, 102, 111, 114, 109, 97, 116], 0⟩]

/-- `DetectMagic` (magic): the first table entry whose bytes match at
its offset, else `"unknown"`. -/
def DetectMagic (data : Str) : String :=
  match magicSignatures.find? (fun sig =>
      decide (sig.offset + sig.magic.length ≤ data.length ∧
        extract data sig.offset (sig.offset + sig.magic.length) = sig.magic)) with
  | some sig => sig.name
  | none => "unknown"

/-- `MatchesMagicFilter` (magic): an empty filter admits everything,
otherwise the detected name must be listed. -/
def MatchesMagicFilter (data : Str) (filter : List String) : Bool :=
  if filter = [] then true
  else filter.contains (DetectMagic data)

/-- Which gate of `processFile` rejected a file. -/
inductive GateReason where
  | magic
  | entropy
deriving DecidableEq, Repr

/-- The gate section of `processFile` (search), in source order: first
the magic filter (when enabled), then the entropy threshold (when
enabled).  The Shannon-entropy computation itself is floating point
(`math.Log2`); it enters only through the comparison with the threshold
and is abstracted as the oracle `entropyOf`. -/
def processFileGate (s : Searcher) (entropyOf : Str → ℚ) (content : Str) :
    Option GateReason :=
  if s.magicTypes ≠ [] ∧ MatchesMagicFilter content s.magicTypes = false then
    some .magic
  else if 0 < s.entropyThreshold ∧ entropyOf content < s.entropyThreshold then
    some .entropy
  else none

/-- The gate order claimed by the specification ("applies the entropy
and magic gates, in that order"): a transcription of the spec's words,
for comparison with `processFileGate` taken from the source. -/
def processFileGateSpecOrder (s : Searcher) (entropyOf : Str → ℚ)
    (content : Str) : Option GateReason :=
  if 0 < s.entropyThreshold ∧ entropyOf content < s.entropyThreshold then
    some .entropy
  else if s.magicTypes ≠ [] ∧ MatchesMagicFilter content s.magicTypes = false then
    some .magic
  else none

/-- `processFile` (search) after the file read: gates, then the BFS. -/
def processFile (s : Searcher) (entropyOf : Str → ℚ) (content : Str)
    (path : String) : List Emitted :=
  match processFileGate s entropyOf content with
  | some _ => []
  | none => searchBFS s content path

/-- Every line emitted by one `printMatch` call carries the decoder chain
that was passed in. -/
theorem mem_printMatch_decoders {s : Searcher} {path : String}
    {ds : List String} {content : Str} {e : Emitted}
    (h : e ∈ printMatch s path ds content) : emDecoders e = ds := by
  simp only [printMatch, List.mem_append, List.mem_map] at h
  rcases h with ⟨loc, _, rfl⟩ | h
  · rfl
  · split at h
    · simp only [List.mem_singleton] at h
      subst h
      rfl
    · simp at h

/-- Every line emitted while visiting a state carries that state's
decoder chain. -/
theorem mem_visitEmit_decoders {s : Searcher} {path : String}
    {st : SearchState} {e : Emitted} (h : e ∈ visitEmit s path st) :
    emDecoders e = st.appliedDecoders := by
  unfold visitEmit at h
  split at h
  · exact mem_printMatch_decoders h
  · simp at h

/-- Characterisation of the successors generated from a dequeued state:
a state is enqueued iff some registry entry decodes the content without
error to a non-empty result that differs from the content. -/
theorem mem_expandState_iff {s : Searcher} {st t : SearchState} :
    t ∈ expandState s st ↔
      ∃ nd ∈ s.decoders, nd.2 st.content = some t.content ∧
        t.content ≠ [] ∧ t.content ≠ st.content ∧
        t.appliedDecoders = st.appliedDecoders ++ [nd.1] ∧
        t.depth = st.depth + 1 := by
  obtain ⟨tc, ta, td⟩ := t
  unfold expandState
  rw [List.mem_filterMap]
  constructor
  · rintro ⟨nd, hmem, hf⟩
    refine ⟨nd, hmem, ?_⟩
    revert hf
    cases hdec : nd.2 st.content with
    | none => intro hf; simp at hf
    | some d =>
      intro hf
      rw [Option.some_bind] at hf
      split at hf
      · rename_i hcond
        injection hf with hf
        rw [SearchState.mk.injEq] at hf
        obtain ⟨h5, h6, h7⟩ := hf
        exact ⟨by rw [h5], h5 ▸ hcond.1, h5 ▸ hcond.2, h6.symm, h7.symm⟩
      · simp at hf
  · rintro ⟨nd, hmem, hdec, hne, hnec, happ, hdep⟩
    refine ⟨nd, hmem, ?_⟩
    rw [hdec, Option.some_bind, if_pos ⟨hne, hnec⟩]
    subst happ hdep
    rfl

/-- A successor's depth is one more than its parent's. -/
theorem mem_expandState_depth {s : Searcher} {st t : SearchState}
    (h : t ∈ expandState s st) : t.depth = st.depth + 1 := by
  obtain ⟨nd, hmem, h1, h2, h3, h4, h5⟩ := mem_expandState_iff.1 h
  exact h5

/-- A successor's chain extends its parent's chain by one name. -/
theorem mem_expandState_chain_length {s : Searcher} {st t : SearchState}
    (h : t ∈ expandState s st) :
    t.appliedDecoders.length = st.appliedDecoders.length + 1 := by
  obtain ⟨nd, _, _, _, _, happ, _⟩ := mem_expandState_iff.1 h
  rw [happ]
  simp

/-- Soundness of the spans returned by the literal
`FindAllStringIndex` model: each span starts at or after the scan
start, lies inside the content, has the pattern's width, and the
pattern occurs at its start. -/
theorem findAllAux_mem {pat content : Str} :
    ∀ fuel i cap a b, (a, b) ∈ findAllAux pat content fuel i cap →
      i ≤ a ∧ a + pat.length ≤ content.length ∧ b = a + pat.length ∧
        pat.isPrefixOf (content.drop a) = true := by
  intro fuel
  induction fuel with
  | zero => intro i cap a b h; simp [findAllAux] at h
  | succ fuel ih =>
    intro i cap a b h
    simp only [findAllAux] at h
    split at h
    · simp at h
    · split at h
      · split at h
        · rename_i hcap hi hpre
          rcases List.mem_cons.1 h with heq | hmem
          · simp only [Prod.mk.injEq] at heq
            obtain ⟨rfl, rfl⟩ := heq
            have hlen : pat.length ≤ (content.drop a).length :=
              (List.isPrefixOf_iff_prefix.1 hpre).length_le
            rw [List.length_drop] at hlen
            exact ⟨Nat.le_refl _, by omega, rfl, hpre⟩
          · obtain ⟨h1, h2⟩ := ih _ _ _ _ hmem
            exact ⟨by omega, h2⟩
        · obtain ⟨h1, h2⟩ := ih _ _ _ _ h
          exact ⟨by omega, h2⟩
      · simp at h

/-- A pattern always occurs in itself (at offset 0). -/
theorem hasMatch_self (pat : Str) : hasMatch pat pat = true := by
  unfold hasMatch
  rw [List.any_eq_true]
  refine ⟨0, by simp, ?_⟩
  simp [List.isPrefixOf_iff_prefix]

/-- `List.find?` over `range' s n` returns the smallest satisfying
element of the range. -/
theorem find?_range'_spec (p : Nat → Bool) :
    ∀ n s k, (List.range' s n).find? p = some k →
      p k = true ∧ s ≤ k ∧ k < s + n ∧ ∀ j, s ≤ j → j < k → p j = false := by
  intro n
  induction n with
  | zero => intro s k h; simp [List.range'] at h
  | succ n ih =>
    intro s k h
    rw [List.range'_succ] at h
    by_cases hs : p s = true
    · rw [List.find?_cons_of_pos _ hs] at h
      obtain rfl := Option.some.inj h
      exact ⟨hs, Nat.le_refl _, by omega, fun j h1 h2 => by omega⟩
    · rw [List.find?_cons_of_neg _ (by simpa using hs)] at h
      obtain ⟨h1, h2, h3, h4⟩ := ih (s + 1) k h
      refine ⟨h1, by omega, by omega, fun j hj1 hj2 => ?_⟩
      rcases Nat.eq_or_lt_of_le hj1 with rfl | hlt
      · simpa using hs
      · exact h4 j hlt hj2

/-- Queue invariant for the chain-length bound: if every queued state
has a chain as long as its depth and depth at most the bound, every
emission's chain length is at most the bound. -/
theorem searchBFSAux_chain_bound (s : Searcher) (path : String) :
    ∀ fuel q,
      (∀ st ∈ q, st.appliedDecoders.length = st.depth ∧ st.depth ≤ s.depth) →
      ∀ e ∈ searchBFSAux s path fuel q, (emDecoders e).length ≤ s.depth := by
  intro fuel
  induction fuel with
  | zero => intro q hq e he; simp [searchBFSAux] at he
  | succ fuel ih =>
    intro q hq e he
    match q with
    | [] => simp [searchBFSAux] at he
    | st :: rest =>
      simp only [searchBFSAux] at he
      rcases List.mem_append.1 he with he | he
      · rw [mem_visitEmit_decoders he]
        obtain ⟨h1, h2⟩ := hq st (List.mem_cons_self st rest)
        omega
      · split at he
        · exact ih rest (fun t ht => hq t (List.mem_cons_of_mem _ ht)) e he
        · rename_i hd
          refine ih _ ?_ e he
          intro t ht
          rcases List.mem_append.1 ht with ht | ht
          · exact hq t (List.mem_cons_of_mem _ ht)
          · obtain ⟨h1, h2⟩ := hq st (List.mem_cons_self st rest)
            have h3 := mem_expandState_depth ht
            have h4 := mem_expandState_chain_length ht
            omega

/-- Queue invariant for the emission lower bound: if every queued state
has a chain as long as its depth and depth at least `d0`, every
emission's chain length is at least `d0`. -/
theorem searchBFSAux_chain_lower (s : Searcher) (path : String) :
    ∀ fuel q d0,
      (∀ st ∈ q, st.appliedDecoders.length = st.depth ∧ d0 ≤ st.depth) →
      ∀ e ∈ searchBFSAux s path fuel q, d0 ≤ (emDecoders e).length := by
  intro fuel
  induction fuel with
  | zero => intro q d0 hq e he; simp [searchBFSAux] at he
  | succ fuel ih =>
    intro q d0 hq e he
    match q with
    | [] => simp [searchBFSAux] at he
    | st :: rest =>
      simp only [searchBFSAux] at he
      rcases List.mem_append.1 he with he | he
      · rw [mem_visitEmit_decoders he]
        obtain ⟨h1, h2⟩ := hq st (List.mem_cons_self st rest)
        omega
      · split at he
        · exact ih rest d0 (fun t ht => hq t (List.mem_cons_of_mem _ ht)) e he
        · refine ih _ d0 ?_ e he
          intro t ht
          rcases List.mem_append.1 ht with ht | ht
          · exact hq t (List.mem_cons_of_mem _ ht)
          · obtain ⟨h1, h2⟩ := hq st (List.mem_cons_self st rest)
            have h3 := mem_expandState_depth ht
            have h4 := mem_expandState_chain_length ht
            omega

/-- Queue invariant for BFS emission order: if the queued depths are
nondecreasing and spread by at most one, the emissions come out in
nondecreasing chain length. -/
theorem searchBFSAux_pairwise (s : Searcher) (path : String) :
    ∀ fuel q,
      (∀ st ∈ q, st.appliedDecoders.length = st.depth) →
      q.Pairwise (fun a b => a.depth ≤ b.depth) →
      (∀ a ∈ q, ∀ b ∈ q, b.depth ≤ a.depth + 1) →
      (searchBFSAux s path fuel q).Pairwise
        (fun e1 e2 => (emDecoders e1).length ≤ (emDecoders e2).length) := by
  intro fuel
  induction fuel with
  | zero => intro q hlen hsort hspread; simp [searchBFSAux]
  | succ fuel ih =>
    intro q hlen hsort hspread
    match q with
    | [] => simp [searchBFSAux]
    | st :: rest =>
      have hstlen := hlen st (List.mem_cons_self st rest)
      have hrest_ge : ∀ b ∈ rest, st.depth ≤ b.depth :=
        (List.pairwise_cons.1 hsort).1
      have hrest_sort := (List.pairwise_cons.1 hsort).2
      simp only [searchBFSAux]
      rw [List.pairwise_append]
      refine ⟨?_, ?_, ?_⟩
      · refine List.pairwise_of_forall_mem_list ?_
        intro a ha b hb
        rw [mem_visitEmit_decoders ha, mem_visitEmit_decoders hb]
      · split
        · exact ih rest (fun t ht => hlen t (List.mem_cons_of_mem _ ht))
            hrest_sort
            (fun a ha b hb => hspread a (List.mem_cons_of_mem _ ha)
              b (List.mem_cons_of_mem _ hb))
        · rename_i hd
          refine ih _ ?_ ?_ ?_
          · intro t ht
            rcases List.mem_append.1 ht with ht | ht
            · exact hlen t (List.mem_cons_of_mem _ ht)
            · rw [mem_expandState_chain_length ht, mem_expandState_depth ht,
                hstlen]
          · rw [List.pairwise_append]
            refine ⟨hrest_sort, ?_, ?_⟩
            · refine List.pairwise_of_forall_mem_list ?_
              intro a ha b hb
              rw [mem_expandState_depth ha, mem_expandState_depth hb]
            · intro a ha b hb
              rw [mem_expandState_depth hb]
              have := hspread st (List.mem_cons_self st rest)
                a (List.mem_cons_of_mem _ ha)
              omega
          · intro a ha b hb
            rcases List.mem_append.1 ha with ha | ha <;>
              rcases List.mem_append.1 hb with hb | hb
            · exact hspread a (List.mem_cons_of_mem _ ha)
                b (List.mem_cons_of_mem _ hb)
            · rw [mem_expandState_depth hb]
              have := hrest_ge a ha
              omega
            · rw [mem_expandState_depth ha]
              have := hspread st (List.mem_cons_self st rest)
                b (List.mem_cons_of_mem _ hb)
              omega
            · rw [mem_expandState_depth ha, mem_expandState_depth hb]
              omega
      · intro e1 he1 e2 he2
        rw [mem_visitEmit_decoders he1, hstlen]
        revert he2
        split
        · rename_i hd
          refine searchBFSAux_chain_lower s path fuel rest st.depth ?_ e2
          intro t ht
          exact ⟨hlen t (List.mem_cons_of_mem _ ht), hrest_ge t ht⟩
        · rename_i hd
          refine searchBFSAux_chain_lower s path fuel _ st.depth ?_ e2
          intro t ht
          rcases List.mem_append.1 ht with ht | ht
          · exact ⟨hlen t (List.mem_cons_of_mem _ ht), hrest_ge t ht⟩
          · refine ⟨?_, ?_⟩
            · rw [mem_expandState_chain_length ht, mem_expandState_depth ht,
                hstlen]
            · rw [mem_expandState_depth ht]
              omega

/-- The weight of a queued state: `(R+1)^(D - depth)`.  It strictly
dominates the total weight of the state's successors, so the total queue
weight strictly decreases with every dequeue. -/
def stateWeight (R D : Nat) (st : SearchState) : Nat :=
  (R + 1) ^ (D - st.depth)

/-- The total weight of a BFS queue. -/
def queueWeight (R D : Nat) (q : List SearchState) : Nat :=
  (q.map (stateWeight R D)).sum

theorem queueWeight_append (R D : Nat) (q1 q2 : List SearchState) :
    queueWeight R D (q1 ++ q2) = queueWeight R D q1 + queueWeight R D q2 := by
  simp [queueWeight]

theorem queueWeight_cons (R D : Nat) (st : SearchState) (q : List SearchState) :
    queueWeight R D (st :: q) = stateWeight R D st + queueWeight R D q := by
  simp [queueWeight]

theorem stateWeight_pos (R D : Nat) (st : SearchState) :
    0 < stateWeight R D st :=
  Nat.pos_pow_of_pos _ (Nat.succ_pos R)

theorem sum_map_le_length_mul {α : Type} (f : α → Nat) (c : Nat) :
    ∀ l : List α, (∀ x ∈ l, f x ≤ c) → (l.map f).sum ≤ l.length * c := by
  intro l
  induction l with
  | nil => simp
  | cons x xs ihx =>
    intro h
    simp only [List.map_cons, List.sum_cons, List.length_cons]
    have h1 := h x (List.mem_cons_self x xs)
    have h2 := ihx fun y hy => h y (List.mem_cons_of_mem _ hy)
    rw [Nat.succ_mul]
    omega

/-- The successors of a state strictly below the depth bound weigh
strictly less than the state itself. -/
theorem expandState_weight_lt (s : Searcher) (st : SearchState)
    (h : st.depth < s.depth) :
    queueWeight s.decoders.length s.depth (expandState s st) <
      stateWeight s.decoders.length s.depth st := by
  set R := s.decoders.length with hR
  have hmemw : ∀ t ∈ expandState s st,
      stateWeight R s.depth t = (R + 1) ^ (s.depth - st.depth - 1) := by
    intro t ht
    rw [stateWeight, mem_expandState_depth ht]
    congr 1
  have hlen : (expandState s st).length ≤ R := by
    rw [hR]
    exact List.length_filterMap_le _ _
  have hsum : queueWeight R s.depth (expandState s st) ≤
      R * (R + 1) ^ (s.depth - st.depth - 1) := by
    calc queueWeight R s.depth (expandState s st)
        ≤ (expandState s st).length * (R + 1) ^ (s.depth - st.depth - 1) :=
          sum_map_le_length_mul _ _ _ (fun t ht => (hmemw t ht).le)
      _ ≤ R * (R + 1) ^ (s.depth - st.depth - 1) :=
          Nat.mul_le_mul_right _ hlen
  have hsplit : stateWeight R s.depth st =
      (R + 1) ^ (s.depth - st.depth - 1) + R * (R + 1) ^ (s.depth - st.depth - 1) := by
    obtain ⟨k, hk⟩ : ∃ k, s.depth - st.depth = k + 1 :=
      ⟨s.depth - st.depth - 1, by omega⟩
    rw [stateWeight, hk]
    simp only [Nat.add_sub_cancel]
    rw [pow_succ]
    ring
  have hpos : 0 < (R + 1) ^ (s.depth - st.depth - 1) :=
    Nat.pos_pow_of_pos _ (Nat.succ_pos R)
  omega

/-- With fuel at least the queue weight, the BFS loop has fully drained
its queue: any larger fuel computes the same emission list.  In
particular `searchBFS`'s fuel `(R+1)^D + 1` is enough, so the model
computes the same total function as the Go loop. -/
theorem searchBFSAux_fuel_ext (s : Searcher) (path : String) :
    ∀ fuel q g, queueWeight s.decoders.length s.depth q ≤ fuel → fuel ≤ g →
      searchBFSAux s path fuel q = searchBFSAux s path g q := by
  intro fuel
  induction fuel with
  | zero =>
    intro q g hw hg
    match q with
    | [] => cases g <;> simp [searchBFSAux]
    | st :: rest =>
      rw [queueWeight_cons] at hw
      have := stateWeight_pos s.decoders.length s.depth st
      omega
  | succ fuel ih =>
    intro q g hw hg
    match q with
    | [] => cases g <;> simp [searchBFSAux]
    | st :: rest =>
      obtain ⟨g', rfl⟩ : ∃ g', g = g' + 1 := ⟨g - 1, by omega⟩
      rw [queueWeight_cons] at hw
      have hwpos := stateWeight_pos s.decoders.length s.depth st
      simp only [searchBFSAux]
      by_cases hd : s.depth ≤ st.depth
      · rw [if_pos hd, if_pos hd, ih rest g' (by omega) (by omega)]
      · rw [if_neg hd, if_neg hd]
        have hlt := expandState_weight_lt s st (by omega)
        rw [ih (rest ++ expandState s st) g' ?_ (by omega)]
        rw [queueWeight_append]
        omega

/-- A single `printMatch` call reports at most five full match records;
further hits are folded into the summary line. -/
theorem printMatch_full_records_le_cap (s : Searcher) (path : String)
    (ds : List String) (content : Str) :
    ((printMatch s path ds content).filter isFullRecord).length ≤
      maxMatchesPerFile := by
  have aux : ∀ A B : List Emitted, A.length ≤ maxMatchesPerFile →
      (∀ e ∈ B, isFullRecord e = false) →
      ((A ++ B).filter isFullRecord).length ≤ maxMatchesPerFile := by
    intro A B hA hB
    rw [List.filter_append, List.length_append]
    have h1 := List.length_filter_le isFullRecord A
    have h2 : B.filter isFullRecord = [] := by
      rw [List.filter_eq_nil_iff]
      intro a ha
      simp [hB a ha]
    rw [h2]
    simp only [List.length_nil]
    omega
  unfold printMatch
  refine aux _ _ ?_ ?_
  · rw [List.length_map]
    exact List.length_take_le _ _
  · intro e he
    split at he
    · rw [List.mem_singleton] at he
      subst he
      rfl
    · simp at he

/-- Configuration used by several concrete runs below: empty pattern
(matches everything), depth bound 0, no decoders, no gates. -/
def cfgDepthZero : Searcher := ⟨[], 0, [], 0, 0, [], 0⟩

/-- Claim C1: every match line emitted by the BFS carries an applied
decoder chain of length at most the configured maximum depth; a state at
the depth bound is never expanded, so no longer chain is ever created or
reported. -/
theorem searchBFS_chain_length_le_depth (s : Searcher) (content : Str)
    (path : String) (e : Emitted) (he : e ∈ searchBFS s content path) :
    (emDecoders e).length ≤ s.depth := by
  refine searchBFSAux_chain_bound s path _ _ ?_ e he
  intro st hst
  rw [List.mem_singleton] at hst
  subst hst
  exact ⟨rfl, Nat.zero_le _⟩

/-- Witness for C1: a depth-0 search over empty content emits the
root-state record, whose chain length 0 is within the bound 0. -/
theorem searchBFS_chain_length_le_depth_witness :
    Emitted.record "f" [] [] [] 0 ∈ searchBFS cfgDepthZero [] "f" ∧
    (emDecoders (Emitted.record "f" [] [] [] 0)).length ≤ cfgDepthZero.depth :=
  ⟨by decide, searchBFS_chain_length_le_depth cfgDepthZero [] "f" _ (by decide)⟩

/-- Registry holding only `space_removal`, as a Searcher configuration
with depth 1, match-everything pattern and no gates. -/
def cfgSpaceOnly : Searcher :=
  ⟨[], 1, [("space_removal", spaceRemovalDecoder)], 0, 0, [], 0⟩

/-- Counterexample to claim C2 as stated: on the one-space content,
`space_removal` succeeds with the empty string, which differs from the
input, yet no successor is enqueued (the search stays at the root), so a
successful decode to the empty string is NOT enqueued. -/
theorem expandState_drops_empty_decode :
    spaceRemovalDecoder [32] = some [] ∧ ([] : Str) ≠ [32] ∧
    expandState cfgSpaceOnly ⟨[32], [], 0⟩ = [] ∧
    ∀ e ∈ searchBFS cfgSpaceOnly [32] "f", emDecoders e = [] := by
  refine ⟨by decide, by decide, by decide, by decide⟩

/-- Claim C2 (amended): a dequeued state below the depth bound has
exactly the `expandState` successors appended to the queue, and a
successor is enqueued iff some registry entry decodes the content
without error to a non-empty result that differs from the content;
empty results are skipped like failures. -/
theorem searchBFS_enqueue_characterisation (s : Searcher) (path : String)
    (fuel : Nat) (st : SearchState) (rest : List SearchState)
    (t : SearchState) :
    (searchBFSAux s path (fuel + 1) (st :: rest) =
      visitEmit s path st ++
        (if s.depth ≤ st.depth then searchBFSAux s path fuel rest
         else searchBFSAux s path fuel (rest ++ expandState s st))) ∧
    (t ∈ expandState s st ↔
      ∃ nd ∈ s.decoders, nd.2 st.content = some t.content ∧
        t.content ≠ [] ∧ t.content ≠ st.content ∧
        t.appliedDecoders = st.appliedDecoders ++ [nd.1] ∧
        t.depth = st.depth + 1) :=
  ⟨rfl, mem_expandState_iff⟩

/-- Claim C3: within one BFS run the emitted lines appear in
nondecreasing chain length (= depth of the emitting state): the FIFO
queue visits every node of depth d before any node of depth d+1. -/
theorem searchBFS_emission_depth_monotone (s : Searcher) (content : Str)
    (path : String) :
    (searchBFS s content path).Pairwise
      (fun e1 e2 => (emDecoders e1).length ≤ (emDecoders e2).length) := by
  refine searchBFSAux_pairwise s path _ _ ?_ ?_ ?_
  · intro st hst
    rw [List.mem_singleton] at hst
    subst hst
    rfl
  · exact List.pairwise_singleton _ _
  · intro a ha b hb
    rw [List.mem_singleton] at ha hb
    subst ha
    subst hb
    omega

/-- Claim C4: every full match record produced by `printMatch` is
internally consistent: the offset is a valid byte index into the decoded
content, the recorded match text is exactly the content slice at that
offset, and the compiled (literal) pattern matches that slice. -/
theorem printMatch_record_consistent (s : Searcher) (path : String)
    (ds : List String) (content : Str) (p : String) (rds : List String)
    (m ctx : Str) (off : Nat)
    (h : Emitted.record p rds m ctx off ∈ printMatch s path ds content) :
    off + m.length ≤ content.length ∧
    m = extract content off (off + m.length) ∧
    hasMatch s.pattern m = true := by
  simp only [printMatch, List.mem_append, List.mem_map] at h
  rcases h with ⟨loc, hloc, heq⟩ | h
  · obtain ⟨a, b⟩ := loc
    have hmem : (a, b) ∈ findAllStringIndex s.pattern content
        (maxMatchesPerFile + 1) := List.mem_of_mem_take hloc
    obtain ⟨h0, hbound, hb, hpre⟩ := findAllAux_mem _ _ _ _ _ hmem
    simp only [Emitted.record.injEq] at heq
    obtain ⟨hp, hds, hm, hctx, hoff⟩ := heq
    subst hoff
    have hba : b - a = s.pattern.length := by omega
    have hpat : s.pattern = (content.drop a).take s.pattern.length :=
      List.prefix_iff_eq_take.1 (List.isPrefixOf_iff_prefix.1 hpre)
    have h3 : a + s.pattern.length - a = s.pattern.length := by omega
    have hm2 : m = s.pattern := by
      rw [← hm, hba, extract, h3]
      exact hpat.symm
    have hlenm : m.length = s.pattern.length := by rw [hm2]
    refine ⟨by omega, ?_, ?_⟩
    · rw [hlenm, ← hm, hba]
    · rw [hm2]
      exact hasMatch_self _
  · split at h
    · rw [List.mem_singleton] at h
      simp at h
    · simp at h

/-- Configuration whose pattern is the single byte `a`, used to witness
the match-record consistency claim. -/
def cfgLiteralA : Searcher := ⟨[97], 0, [], 0, 0, [], 0⟩

/-- Witness for C4: on content `a` with pattern `a`, `printMatch` emits
the record (offset 0, match `a`), and the theorem's conclusions hold for
it. -/
theorem printMatch_record_consistent_witness :
    Emitted.record "f" [] [97] [97] 0 ∈ printMatch cfgLiteralA "f" [] [97] ∧
    (0 + ([97] : Str).length ≤ ([97] : Str).length ∧
      ([97] : Str) = extract [97] 0 (0 + ([97] : Str).length) ∧
      hasMatch cfgLiteralA.pattern [97] = true) :=
  ⟨by decide,
    printMatch_record_consistent cfgLiteralA "f" [] [97] "f" [] [97] [97] 0
      (by decide)⟩

/-- Claim C5 / code bug: `base85Decoder` is not total.  On the three-byte
framed input `<~>` both the `<~` prefix test and the `~>` suffix test
succeed, and the frame strip `s[2 : len(s)-2]` evaluates with bounds
`[2:1]`, a slice-bounds runtime panic, instead of returning a failure. -/
theorem base85Decoder_panics_on_short_frame :
    base85Decoder [60, 126, 62] = DecodeOutcome.panics := by decide

/-- Two-decoder registry in source iteration order, for the
registry-order experiments. -/
def cfgRegOrderA : Searcher :=
  ⟨[], 1, [("rot13", rot13Decoder), ("atbash", atbashDecoder)], 0, 0, [], 0⟩

/-- The same registry enumerated in the opposite order, as Go's
randomised map iteration may deliver it on another run. -/
def cfgRegOrderB : Searcher :=
  { cfgRegOrderA with decoders := cfgRegOrderA.decoders.reverse }

/-- Claim C6 / code bug: the emitted sequence depends on the registry
enumeration order.  `searchBFS` iterates a Go map with `range`, whose
order is randomised per loop execution, so two runs over the same
content within one process may emit the same chains in different
orders. -/
theorem searchBFS_registry_order_sensitive :
    searchBFS cfgRegOrderA [97] "f" ≠ searchBFS cfgRegOrderB [97] "f" := by
  decide

/-- Claim C7: for non-empty input, the XOR brute force succeeds iff some
key in 1..255 makes at least 80% of the XORed bytes printable, and on
success the result is the input XORed with the smallest such key (keys
are tried in ascending order). -/
theorem xorBruteForceDecoder_first_printable_key (b : Str) (hb : b ≠ []) :
    ((xorBruteForceDecoder b).isSome ↔
      ∃ k, 1 ≤ k ∧ k ≤ 255 ∧ xorOk b k = true) ∧
    ∀ r, xorBruteForceDecoder b = some r →
      ∃ k0, 1 ≤ k0 ∧ k0 ≤ 255 ∧ xorOk b k0 = true ∧
        (∀ j, 1 ≤ j → j < k0 → xorOk b j = false) ∧
        r = b.map fun x => x ^^^ k0 := by
  unfold xorBruteForceDecoder
  rw [if_neg hb]
  cases hf : (List.range' 1 255).find? (fun k => xorOk b k) with
  | some k =>
    have hs := find?_range'_spec _ 255 1 k hf
    constructor
    · simp only [Option.isSome_some, true_iff]
      exact ⟨k, hs.2.1, by omega, hs.1⟩
    · intro r hr
      obtain rfl := (Option.some.inj hr).symm
      exact ⟨k, hs.2.1, by omega, hs.1, fun j h1 h2 => hs.2.2.2 j h1 h2, rfl⟩
  | none =>
    constructor
    · simp only [Option.isSome_none, Bool.false_eq_true, false_iff]
      rintro ⟨k, hk1, hk2, hok⟩
      have hissome : ((List.range' 1 255).find? fun k => xorOk b k).isSome := by
        rw [List.find?_isSome]
        exact ⟨k, List.mem_range'_1.2 ⟨hk1, by omega⟩, hok⟩
      rw [hf] at hissome
      simp at hissome
    · intro r hr
      exact Option.noConfusion hr

/-- Witness for C7: on the one-byte input `0x01` some key qualifies
(key 8 XORs it to tab), so the decoder succeeds. -/
theorem xorBruteForceDecoder_first_printable_key_witness :
    ([1] : Str) ≠ [] ∧ (xorBruteForceDecoder [1]).isSome :=
  ⟨by decide,
    ((xorBruteForceDecoder_first_printable_key [1] (by decide)).1).2
      ⟨8, by decide, by decide, by decide⟩⟩

/-- Claim C8 / code bug: the reverse decoder is not an involution on
arbitrary byte content.  The single invalid-UTF-8 byte 0xFF is converted
by `[]rune` to U+FFFD, so one application yields the replacement
character's bytes EF BF BD and a second application returns those same
bytes, not the original 0xFF. -/
theorem reverseDecoder_not_involutive_on_invalid_utf8 :
    reverseDecoder [255] = some [239, 191, 189] ∧
    reverseDecoder [239, 191, 189] = some [239, 191, 189] ∧
    ([239, 191, 189] : Str) ≠ [255] := by decide

/-- Gate configuration with the magic filter `{ELF}` and entropy
threshold 4, both enabled. -/
def cfgGates : Searcher := ⟨[], 0, [], 0, 0, ["ELF"], 4⟩

/-- Counterexample to claim C9 as stated: on four zero bytes (magic
`unknown`, entropy 0) both enabled gates reject, and the code reports
the magic gate, while the claimed entropy-first order would report the
entropy gate: the code applies the magic gate first, not the entropy
gate. -/
theorem processFileGate_magic_before_entropy :
    processFileGate cfgGates (fun _ => 0) [0, 0, 0, 0] = some GateReason.magic ∧
    processFileGateSpecOrder cfgGates (fun _ => 0) [0, 0, 0, 0] =
      some GateReason.entropy ∧
    processFileGate cfgGates (fun _ => 0) [0, 0, 0, 0] ≠
      processFileGateSpecOrder cfgGates (fun _ => 0) [0, 0, 0, 0] := by
  refine ⟨by decide, by decide, by decide⟩

/-- Claim C9 (amended): for every file read by a worker, the magic gate
is applied first and the entropy gate second, and the file is skipped
(no BFS runs) iff at least one enabled gate rejects it. -/
theorem processFile_gate_characterisation (s : Searcher)
    (entropyOf : Str → ℚ) (content : Str) (path : String) :
    (processFileGate s entropyOf content = none ↔
      ¬(s.magicTypes ≠ [] ∧ MatchesMagicFilter content s.magicTypes = false) ∧
      ¬(0 < s.entropyThreshold ∧ entropyOf content < s.entropyThreshold)) ∧
    (processFileGate s entropyOf content = some GateReason.magic ↔
      s.magicTypes ≠ [] ∧ MatchesMagicFilter content s.magicTypes = false) ∧
    (processFileGate s entropyOf content = some GateReason.entropy ↔
      ¬(s.magicTypes ≠ [] ∧ MatchesMagicFilter content s.magicTypes = false) ∧
      0 < s.entropyThreshold ∧ entropyOf content < s.entropyThreshold) ∧
    processFile s entropyOf content path =
      (if processFileGate s entropyOf content = none
       then searchBFS s content path else []) := by
  by_cases h1 : s.magicTypes ≠ [] ∧ MatchesMagicFilter content s.magicTypes = false
  · simp [processFileGate, processFile, h1]
  · by_cases h2 : 0 < s.entropyThreshold ∧ entropyOf content < s.entropyThreshold
    · simp [processFileGate, processFile, h1, h2]
    · simp [processFileGate, processFile, h1, h2]

/-- Configuration with pattern `a`, depth 1, and the single decoder
`rot13`; no gates. -/
def cfgRotOnly : Searcher :=
  ⟨[97], 1, [("rot13", rot13Decoder)], 0, 0, [], 0⟩

/-- The twelve-byte file content `aaaaaannnnnn`. -/
def contentC10 : Str := [97, 97, 97, 97, 97, 97, 110, 110, 110, 110, 110, 110]

/-- Claim C10 / code bug: the five-record cap is applied per matching
state (per `printMatch` call), not per file.  On `aaaaaannnnnn` with
pattern `a` and depth 1, the root state and its `rot13` child
(`nnnnnnaaaaaa`) each match six times, so the file gets 10 full records
(plus two summary lines), exceeding the claimed per-file cap of 5. -/
theorem searchBFS_exceeds_per_file_cap :
    ((searchBFS cfgRotOnly contentC10 "f").filter isFullRecord).length = 10 ∧
    ¬((searchBFS cfgRotOnly contentC10 "f").filter isFullRecord).length ≤
      maxMatchesPerFile := by
  refine ⟨by decide, by decide⟩
